import Mathlib

/-!
# Verification of the CRF layer of `bert4torch/layers.py`

This file gives a shallow embedding of the `CRF` class (linear-chain
conditional random field) of `src/bert4torch/layers.py` and proves the
specification claims about it.

Modelling conventions:
* real-valued tensors become functions into `ℝ`; a tensor of shape
  `[B, S, T]` becomes `Fin B → ℕ → Fin T → ℝ` (the time axis is `ℕ`,
  only indices `< S` are ever read);
* the binary mask becomes `ℕ → Bool` per batch row;
* `torch.max(·, dim)` becomes the pair `vmax` / `vargmax` below
  (`torch.max` returns a maximal value together with an index attaining
  it; the tie-breaking index `torch.max` returns is unspecified, here we
  fix the smallest index attaining the maximum, no claim depends on the
  choice);
* in-place tensor updates (`masked_scatter_`, `masked_fill_`,
  `scatter_`) are translated to the pure elementwise selects they
  perform on the freshly created tensors they act on.
-/

namespace CRF

/-- `START_TAG_IDX = -2`: python negative indexing into a dimension of
size `L + 2` selects index `L`. -/
def startIdx (L : ℕ) : Fin (L + 2) := ⟨L, by omega⟩

/-- `END_TAG_IDX = -1`: python negative indexing into a dimension of
size `L + 2` selects index `L + 1`. -/
def endIdx (L : ℕ) : Fin (L + 2) := ⟨L + 1, by omega⟩

/-- Maximum of a nonempty vector, as computed by `torch.max(vec, dim)`
along the reduced dimension. -/
noncomputable def vmax : (n : ℕ) → (Fin (n + 1) → ℝ) → ℝ
  | 0, f => f 0
  | n + 1, f => max (vmax n fun i => f i.castSucc) (f (Fin.last (n + 1)))

/-- An index attaining `vmax`, as returned by `torch.max(vec, dim)`
(smallest such index; `torch.max`'s tie-breaking is unspecified). -/
noncomputable def vargmax : (n : ℕ) → (Fin (n + 1) → ℝ) → Fin (n + 1)
  | 0, _ => 0
  | n + 1, f =>
    if f (Fin.last (n + 1)) ≤ vmax n fun i => f i.castSucc then
      (vargmax n fun i => f i.castSucc).castSucc
    else Fin.last (n + 1)

theorem le_vmax {n : ℕ} (f : Fin (n + 1) → ℝ) (i : Fin (n + 1)) : f i ≤ vmax n f := by
  induction n with
  | zero =>
    have hi : i = 0 := Fin.eq_zero i
    subst hi; exact le_of_eq rfl
  | succ n ih =>
    refine Fin.lastCases ?_ ?_ i
    · exact le_max_right _ _
    · intro j
      exact le_trans (ih (fun i => f i.castSucc) j) (le_max_left _ _)

theorem vargmax_eq_vmax {n : ℕ} (f : Fin (n + 1) → ℝ) : f (vargmax n f) = vmax n f := by
  induction n with
  | zero => rfl
  | succ n ih =>
    by_cases h : f (Fin.last (n + 1)) ≤ vmax n fun i => f i.castSucc
    · rw [vargmax, vmax, if_pos h]
      rw [ih (fun i => f i.castSucc), max_eq_left h]
    · rw [vargmax, vmax, if_neg h]
      rw [max_eq_right (le_of_not_le h)]

theorem vmax_le {n : ℕ} (f : Fin (n + 1) → ℝ) (c : ℝ) (h : ∀ i, f i ≤ c) : vmax n f ≤ c := by
  rw [← vargmax_eq_vmax]; exact h _

/-- `CRF.log_sum_exp(vec, m_size)`: per reduced slice, take the max
(`torch.max` + `gather` of the attained values), subtract it, exponentiate,
sum, take the log and add the max back. -/
noncomputable def log_sum_exp {n : ℕ} (vec : Fin (n + 1) → ℝ) : ℝ :=
  vmax n vec + Real.log (∑ i, Real.exp (vec i - vmax n vec))

/-- In exact real arithmetic the max-shifted log-sum-exp equals the plain
log of the sum of exponentials. -/
theorem log_sum_exp_eq {n : ℕ} (vec : Fin (n + 1) → ℝ) :
    log_sum_exp vec = Real.log (∑ i, Real.exp (vec i)) := by
  have hpos : (0 : ℝ) < ∑ i, Real.exp (vec i) :=
    Finset.sum_pos (fun i _ => Real.exp_pos _) Finset.univ_nonempty
  have hsum : (∑ i, Real.exp (vec i - vmax n vec))
      = (∑ i, Real.exp (vec i)) * Real.exp (-(vmax n vec)) := by
    rw [Finset.sum_mul]
    refine Finset.sum_congr rfl fun i _ => ?_
    rw [← Real.exp_add]; ring_nf
  rw [log_sum_exp, hsum, Real.log_mul (ne_of_gt hpos) (ne_of_gt (Real.exp_pos _)),
    Real.log_exp]
  ring

/-- The pairwise score tensor built identically in `_forward_alg` and
`_viterbi_decode` (per batch row): `scores[t][i][j] = feats[t][j] + transitions[i][j]`
(emission broadcast over the "from" axis `i`). -/
def scoresRow {L : ℕ} (trans : Fin (L + 2) → Fin (L + 2) → ℝ)
    (feats : ℕ → Fin (L + 2) → ℝ) (t : ℕ) (i j : Fin (L + 2)) : ℝ :=
  feats t j + trans i j

/-- `torch.sum(mask, dim=1)` on one mask row, over the first `S` time
steps (`length_mask` in `_score_sentence` / `_viterbi_decode`). -/
def maskSum (S : ℕ) (mask : ℕ → Bool) : ℕ :=
  ∑ t ∈ Finset.range S, (if mask t then 1 else 0)

/-- The documented mask invariant: the valid positions of a row form a
contiguous prefix, of length `l`. -/
def isContigMask (mask : ℕ → Bool) (l : ℕ) : Prop :=
  ∀ t, mask t = true ↔ t < l

theorem maskSum_of_contig {mask : ℕ → Bool} {l : ℕ} (h : isContigMask mask l)
    (S : ℕ) : maskSum S mask = min l S := by
  induction S with
  | zero => simp [maskSum]
  | succ S ih =>
    rw [maskSum, Finset.sum_range_succ, ← maskSum, ih]
    by_cases hS : S < l
    · rw [if_pos ((h S).2 hS)]; omega
    · rw [if_neg (by simp only [← h S] at hS; simp [hS])]; omega

/-- The running `partition` tensor of `CRF._forward_alg`, per batch row.
`partition[0] = inivalues[:, START_TAG_IDX, :]`; at step `t + 1` the row
is replaced by the log-sum-exp update when `mask[t + 1] = 1`
(`masked_scatter_`) and carried over unchanged otherwise. -/
noncomputable def fwdPartition {L : ℕ} (trans : Fin (L + 2) → Fin (L + 2) → ℝ)
    (feats : ℕ → Fin (L + 2) → ℝ) (mask : ℕ → Bool) : ℕ → Fin (L + 2) → ℝ
  | 0 => fun j => scoresRow trans feats 0 (startIdx L) j
  | t + 1 =>
    if mask (t + 1) then
      fun j => log_sum_exp fun i =>
        scoresRow trans feats (t + 1) i j + fwdPartition trans feats mask t i
    else fwdPartition trans feats mask t

/-- The per-row summand of `final_partition` in `_forward_alg`: one last
transition combination `transitions[i][j] + partition[i]`, a log-sum-exp
over the "from" axis, then selection of the `END` column. -/
noncomputable def forward_score_row {L : ℕ} (trans : Fin (L + 2) → Fin (L + 2) → ℝ)
    (S : ℕ) (feats : ℕ → Fin (L + 2) → ℝ) (mask : ℕ → Bool) : ℝ :=
  log_sum_exp fun i => trans i (endIdx L) + fwdPartition trans feats mask (S - 1) i

/-- `CRF._forward_alg`: returns `final_partition.sum()` (sum of the
per-row log-partitions over the batch) together with the pairwise score
tensor `scores` of shape `[seq_len, bts, tag_size, tag_size]`. -/
noncomputable def forward_alg {L B : ℕ} (trans : Fin (L + 2) → Fin (L + 2) → ℝ)
    (S : ℕ) (feats : Fin B → ℕ → Fin (L + 2) → ℝ) (mask : Fin B → ℕ → Bool) :
    ℝ × (ℕ → Fin B → Fin (L + 2) → Fin (L + 2) → ℝ) :=
  (∑ b, forward_score_row trans S (feats b) (mask b),
    fun t b i j => scoresRow trans (feats b) t i j)

/-- Once a contiguous-prefix mask has run out (`t ≥ l - 1`), the forward
partition row is frozen at its value at the last valid step. -/
theorem fwdPartition_freeze {L : ℕ} (trans : Fin (L + 2) → Fin (L + 2) → ℝ)
    (feats : ℕ → Fin (L + 2) → ℝ) {mask : ℕ → Bool} {l : ℕ}
    (h : isContigMask mask l) (t : ℕ) (ht : l - 1 ≤ t) :
    fwdPartition trans feats mask t = fwdPartition trans feats mask (l - 1) := by
  induction t with
  | zero =>
    have : l - 1 = 0 := by omega
    rw [this]
  | succ t ih =>
    by_cases h1 : l - 1 ≤ t
    · have hm : mask (t + 1) = false := by
        have : ¬ t + 1 < l := by omega
        simp only [← h (t + 1)] at this; simp at this; exact this
      rw [fwdPartition, hm]; simp only [Bool.false_eq_true, if_false]
      exact ih h1
    · have : l - 1 = t + 1 := by omega
      rw [this]

/-- `fwdPartition` at step `t` only reads the emissions at steps `≤ t`
and the mask at steps `1 .. t`. -/
theorem fwdPartition_congr {L : ℕ} (trans : Fin (L + 2) → Fin (L + 2) → ℝ)
    {feats₁ feats₂ : ℕ → Fin (L + 2) → ℝ} {mask₁ mask₂ : ℕ → Bool} (t : ℕ)
    (hf : ∀ s ≤ t, ∀ j, feats₁ s j = feats₂ s j)
    (hm : ∀ s, 1 ≤ s → s ≤ t → mask₁ s = mask₂ s) :
    fwdPartition trans feats₁ mask₁ t = fwdPartition trans feats₂ mask₂ t := by
  induction t with
  | zero =>
    funext j
    simp only [fwdPartition, scoresRow, hf 0 (le_refl 0) j]
  | succ t ih =>
    have hrec : fwdPartition trans feats₁ mask₁ t = fwdPartition trans feats₂ mask₂ t :=
      ih (fun s hs j => hf s (by omega) j) (fun s h1 h2 => hm s h1 (by omega))
    rw [fwdPartition, fwdPartition, hm (t + 1) (by omega) (le_refl _), hrec]
    by_cases h2 : mask₂ (t + 1) = true
    · rw [if_pos h2, if_pos h2]
      funext j
      congr 1
      funext i
      simp only [scoresRow, hf (t + 1) (le_refl _) j]
    · rw [if_neg h2, if_neg h2]

/-- Spec-side path score (the formula the claims state): a path
`y 0, …, y (n-1)` scores
`Trans[START, y 0] + Emission[0, y 0] + ∑ t = 1 … n-1, (Trans[y (t-1), y t] + Emission[t, y t])`.
The final transition into `END` is added separately where needed. -/
noncomputable def prefScore {L : ℕ} (trans : Fin (L + 2) → Fin (L + 2) → ℝ)
    (feats : ℕ → Fin (L + 2) → ℝ) (y : ℕ → Fin (L + 2)) : ℕ → ℝ
  | 0 => 0
  | 1 => trans (startIdx L) (y 0) + feats 0 (y 0)
  | n + 2 => prefScore trans feats y (n + 1) +
      (trans (y n) (y (n + 1)) + feats (n + 1) (y (n + 1)))

theorem prefScore_congr {L : ℕ} (trans : Fin (L + 2) → Fin (L + 2) → ℝ)
    (feats : ℕ → Fin (L + 2) → ℝ) : ∀ (n : ℕ) (y z : ℕ → Fin (L + 2)),
    (∀ t, t < n → y t = z t) →
    prefScore trans feats y n = prefScore trans feats z n := by
  intro n
  induction n with
  | zero => intro y z _; rfl
  | succ n ih =>
    intro y z hyz
    cases n with
    | zero => simp only [prefScore, hyz 0 (by omega)]
    | succ m =>
      simp only [prefScore]
      rw [ih y z (fun t ht => hyz t (by omega)), hyz m (by omega), hyz (m + 1) (by omega)]

/-- A finite path `Fin n → tags`, extended to all of `ℕ` by an arbitrary
fill value (`START`) beyond its length. -/
def extendPath {L : ℕ} (n : ℕ) (y : Fin n → Fin (L + 2)) : ℕ → Fin (L + 2) :=
  fun t => if h : t < n then y ⟨t, h⟩ else startIdx L

theorem extendPath_of_lt {L : ℕ} {n : ℕ} (y : Fin n → Fin (L + 2)) {s : ℕ}
    (h : s < n) : extendPath n y s = y ⟨s, h⟩ := dif_pos h

theorem extendPath_snoc_lt {L : ℕ} {n : ℕ} (y : Fin n → Fin (L + 2))
    (j : Fin (L + 2)) {s : ℕ} (hs : s < n) :
    extendPath (n + 1) (Fin.snoc y j) s = extendPath n y s := by
  rw [extendPath_of_lt _ (by omega), extendPath_of_lt _ hs]
  have hcast : (⟨s, by omega⟩ : Fin (n + 1)) = Fin.castSucc ⟨s, hs⟩ := rfl
  rw [hcast, Fin.snoc_castSucc]

theorem extendPath_snoc_self {L : ℕ} {n : ℕ} (y : Fin n → Fin (L + 2))
    (j : Fin (L + 2)) : extendPath (n + 1) (Fin.snoc y j) n = j := by
  rw [extendPath_of_lt _ (by omega)]
  have hcast : (⟨n, by omega⟩ : Fin (n + 1)) = Fin.last n := rfl
  rw [hcast, Fin.snoc_last]

/-- Appending a step to a finite path adds the corresponding transition
and emission scores. -/
theorem prefScore_snoc {L : ℕ} (trans : Fin (L + 2) → Fin (L + 2) → ℝ)
    (feats : ℕ → Fin (L + 2) → ℝ) {t : ℕ} (y : Fin (t + 1) → Fin (L + 2))
    (j : Fin (L + 2)) :
    prefScore trans feats (extendPath (t + 2) (Fin.snoc y j)) (t + 2)
      = prefScore trans feats (extendPath (t + 1) y) (t + 1) +
        (trans (y (Fin.last t)) j + feats (t + 1) j) := by
  simp only [prefScore]
  rw [prefScore_congr trans feats (t + 1) _ (extendPath (t + 1) y)
    (fun s hs => extendPath_snoc_lt y j hs)]
  rw [extendPath_snoc_self y j, extendPath_snoc_lt y j (by omega),
    extendPath_of_lt y (by omega)]
  have : (⟨t, by omega⟩ : Fin (t + 1)) = Fin.last t := rfl
  rw [this]

/-- Sum over all length-`n + 1` paths with a fixed last tag `j`, written
as a sum over the first `n` steps. -/
theorem sum_snoc {T n : ℕ} (g : (Fin (n + 1) → Fin T) → ℝ) (j : Fin T) :
    (∑ z : Fin (n + 1) → Fin T, if z (Fin.last n) = j then g z else 0)
      = ∑ y : Fin n → Fin T, g (Fin.snoc y j) := by
  rw [← Equiv.sum_comp (Fin.snocEquiv (fun _ => Fin T))
    (fun z => if z (Fin.last n) = j then g z else 0), Fintype.sum_prod_type]
  simp only [Fin.snocEquiv_apply, Fin.snoc_last]
  rw [Finset.sum_comm]
  refine Finset.sum_congr rfl fun y _ => ?_
  have h2 : ∀ x : Fin T, (Fin.snocEquiv fun _ => Fin T) (x, y) = Fin.snoc y x :=
    fun _ => rfl
  simp only [h2]
  rw [Finset.sum_ite_eq' Finset.univ j (fun x => g (Fin.snoc y x))]
  exact if_pos (Finset.mem_univ j)

/-- Sum, over all paths of length `t + 1` ending in tag `j`, of the
exponentiated path score: the quantity whose logarithm the forward
partition maintains. -/
noncomputable def endSum {L : ℕ} (trans : Fin (L + 2) → Fin (L + 2) → ℝ)
    (feats : ℕ → Fin (L + 2) → ℝ) (t : ℕ) (j : Fin (L + 2)) : ℝ :=
  ∑ y : Fin (t + 1) → Fin (L + 2),
    if y (Fin.last t) = j then
      Real.exp (prefScore trans feats (extendPath (t + 1) y) (t + 1)) else 0

theorem endSum_pos {L : ℕ} (trans : Fin (L + 2) → Fin (L + 2) → ℝ)
    (feats : ℕ → Fin (L + 2) → ℝ) (t : ℕ) (j : Fin (L + 2)) :
    0 < endSum trans feats t j := by
  refine Finset.sum_pos' (fun y _ => ?_) ⟨fun _ => j, Finset.mem_univ _, ?_⟩
  · by_cases h : y (Fin.last t) = j
    · rw [if_pos h]; exact le_of_lt (Real.exp_pos _)
    · rw [if_neg h]
  · rw [if_pos rfl]; exact Real.exp_pos _

/-- The total partition function of the claims: sum over all `(L+2)`-ary
tag sequences of length `l` of the exponentiated total path score,
including the final transition into `END`. -/
noncomputable def pathSum {L : ℕ} (trans : Fin (L + 2) → Fin (L + 2) → ℝ)
    (feats : ℕ → Fin (L + 2) → ℝ) (l : ℕ) : ℝ :=
  ∑ y : Fin l → Fin (L + 2),
    Real.exp (prefScore trans feats (extendPath l y) l +
      trans (extendPath l y (l - 1)) (endIdx L))

/-- The forward DP invariant: while the mask is still valid, the
partition row holds the log of the sum of exponentiated prefix-path
scores ending in each tag. -/
theorem fwdPartition_eq_log {L : ℕ} (trans : Fin (L + 2) → Fin (L + 2) → ℝ)
    (feats : ℕ → Fin (L + 2) → ℝ) {mask : ℕ → Bool} {l : ℕ}
    (h : isContigMask mask l) :
    ∀ t, t < l → ∀ j, fwdPartition trans feats mask t j
      = Real.log (endSum trans feats t j) := by
  intro t
  induction t with
  | zero =>
    intro _ j
    have hz : ∀ y0 : Fin 0 → Fin (L + 2), extendPath 1 (Fin.snoc y0 j) 0 = j :=
      fun y0 => extendPath_snoc_self y0 j
    rw [endSum, sum_snoc (fun z => Real.exp
      (prefScore trans feats (extendPath 1 z) 1)) j, Fintype.sum_unique]
    simp only [prefScore, hz]
    rw [Real.log_exp, fwdPartition]
    simp only [scoresRow]
    ring
  | succ t ih =>
    intro ht j
    have hmask : mask (t + 1) = true := (h (t + 1)).2 ht
    rw [fwdPartition, hmask, if_pos rfl, log_sum_exp_eq]
    have ih2 : ∀ i, fwdPartition trans feats mask t i
        = Real.log (endSum trans feats t i) := ih (by omega)
    simp only [ih2]
    congr 1
    have hstep : ∀ i, Real.exp (scoresRow trans feats (t + 1) i j +
        Real.log (endSum trans feats t i))
        = Real.exp (scoresRow trans feats (t + 1) i j) * endSum trans feats t i := by
      intro i; rw [Real.exp_add, Real.exp_log (endSum_pos _ _ _ _)]
    simp only [hstep]
    simp only [endSum, Finset.mul_sum, mul_ite, mul_zero]
    rw [Finset.sum_comm]
    have hinner : ∀ y : Fin (t + 1) → Fin (L + 2),
        (∑ i, if y (Fin.last t) = i then
          Real.exp (scoresRow trans feats (t + 1) i j) *
            Real.exp (prefScore trans feats (extendPath (t + 1) y) (t + 1)) else 0)
        = Real.exp (prefScore trans feats (extendPath (t + 2) (Fin.snoc y j)) (t + 2)) := by
      intro y
      rw [Finset.sum_ite_eq Finset.univ (y (Fin.last t)) _,
        if_pos (Finset.mem_univ _), ← Real.exp_add, prefScore_snoc]
      congr 1
      simp only [scoresRow]
      ring
    simp only [hinner]
    rw [sum_snoc (fun z => Real.exp
      (prefScore trans feats (extendPath (t + 2) z) (t + 2))) j]

/-- Per batch row, `_forward_alg` computes exactly the log of the total
partition function over all paths of the row's true length. -/
theorem forward_score_row_eq {L : ℕ} (trans : Fin (L + 2) → Fin (L + 2) → ℝ)
    (feats : ℕ → Fin (L + 2) → ℝ) {mask : ℕ → Bool} {l S : ℕ}
    (h : isContigMask mask l) (hl : 1 ≤ l) (hS : l ≤ S) :
    forward_score_row trans S feats mask = Real.log (pathSum trans feats l) := by
  obtain ⟨m, rfl⟩ : ∃ m, l = m + 1 := ⟨l - 1, by omega⟩
  rw [forward_score_row]
  have hfreeze : fwdPartition trans feats mask (S - 1)
      = fwdPartition trans feats mask m := by
    simpa using fwdPartition_freeze trans feats h (S - 1) (by omega)
  rw [hfreeze, log_sum_exp_eq]
  have ihall : ∀ i, fwdPartition trans feats mask m i
      = Real.log (endSum trans feats m i) :=
    fwdPartition_eq_log trans feats h m (by omega)
  simp only [ihall]
  congr 1
  have hstep : ∀ i, Real.exp (trans i (endIdx L) +
      Real.log (endSum trans feats m i))
      = Real.exp (trans i (endIdx L)) * endSum trans feats m i := fun i => by
    rw [Real.exp_add, Real.exp_log (endSum_pos _ _ _ _)]
  simp only [hstep]
  simp only [endSum, Finset.mul_sum, mul_ite, mul_zero]
  rw [Finset.sum_comm]
  have hinner : ∀ y : Fin (m + 1) → Fin (L + 2),
      (∑ i, if y (Fin.last m) = i then Real.exp (trans i (endIdx L)) *
        Real.exp (prefScore trans feats (extendPath (m + 1) y) (m + 1)) else 0)
      = Real.exp (prefScore trans feats (extendPath (m + 1) y) (m + 1) +
          trans (extendPath (m + 1) y m) (endIdx L)) := by
    intro y
    rw [Finset.sum_ite_eq Finset.univ (y (Fin.last m)) _,
      if_pos (Finset.mem_univ _), ← Real.exp_add]
    congr 1
    rw [extendPath_of_lt y (by omega)]
    have hlast : (⟨m, by omega⟩ : Fin (m + 1)) = Fin.last m := rfl
    rw [hlast]
    ring
  simp only [hinner]
  rw [pathSum]
  simp only [Nat.add_sub_cancel]

/-- `new_tags` of `CRF._score_sentence`: the flat index into the
`tag_size × tag_size` pairwise tensor of the transition actually taken at
step `t`: `(tag_size - 2) * tag_size + tags[0]` at `t = 0`
(`tag_size - 2` is `START_TAG_IDX`), `tags[t-1] * tag_size + tags[t]`
otherwise. -/
def newTags {L : ℕ} (tags : ℕ → Fin (L + 2)) (t : ℕ) : ℕ :=
  if t = 0 then ((L + 2) - 2) * (L + 2) + (tags 0).val
  else (tags (t - 1)).val * (L + 2) + (tags t).val

/-- `torch.gather` on the last axis of `scores.view(seq_len, btz, -1)`:
the flat index `n` addresses entry `(n / tag_size, n % tag_size)` of the
`tag_size × tag_size` slice. An out-of-range index is a runtime error in
torch; it is modelled as `0` and is never exercised (the flat indices
built from `Fin`-typed tags are always in range). -/
def gatherFlat {L : ℕ} (f : Fin (L + 2) → Fin (L + 2) → ℝ) (n : ℕ) : ℝ :=
  if h : n < (L + 2) * (L + 2) then
    f ⟨n / (L + 2), (Nat.div_lt_iff_lt_mul (by omega)).2 h⟩
      ⟨n % (L + 2), Nat.mod_lt _ (by omega)⟩
  else 0

/-- `tg_energy` of `_score_sentence` before masking, per batch row. -/
def tg_energy {L : ℕ} (scores_row : ℕ → Fin (L + 2) → Fin (L + 2) → ℝ)
    (tags : ℕ → Fin (L + 2)) (t : ℕ) : ℝ :=
  gatherFlat (scores_row t) (newTags tags t)

/-- Per-row contribution to `_score_sentence`: masked sum of the gathered
transition energies, plus the `end_energy` term
`transitions[tags[length - 1], END_TAG_IDX]` (`length` from the mask
row-sum). -/
def score_sentence_row {L : ℕ} (trans : Fin (L + 2) → Fin (L + 2) → ℝ)
    (scores_row : ℕ → Fin (L + 2) → Fin (L + 2) → ℝ) (S : ℕ)
    (mask : ℕ → Bool) (tags : ℕ → Fin (L + 2)) : ℝ :=
  (∑ t ∈ Finset.range S, if mask t then tg_energy scores_row tags t else 0)
    + trans (tags (maskSum S mask - 1)) (endIdx L)

/-- `CRF._score_sentence`: `tg_energy.masked_select(...).sum() +
end_energy.sum()`, regrouped as a sum of per-row contributions. -/
def score_sentence {L B : ℕ} (trans : Fin (L + 2) → Fin (L + 2) → ℝ)
    (scores : ℕ → Fin B → Fin (L + 2) → Fin (L + 2) → ℝ) (S : ℕ)
    (mask : Fin B → ℕ → Bool) (tags : Fin B → ℕ → Fin (L + 2)) : ℝ :=
  ∑ b, score_sentence_row trans (fun t => scores t b) S (mask b) (tags b)

/-- `CRF.neg_log_likelihood_loss`:
`(forward_score - gold_score) / bts`, with `gold_score` computed from the
pairwise scores returned by `_forward_alg`. -/
noncomputable def neg_log_likelihood_loss {L B : ℕ}
    (trans : Fin (L + 2) → Fin (L + 2) → ℝ) (S : ℕ)
    (feats : Fin B → ℕ → Fin (L + 2) → ℝ) (mask : Fin B → ℕ → Bool)
    (tags : Fin B → ℕ → Fin (L + 2)) : ℝ :=
  ((forward_alg trans S feats mask).1 -
    score_sentence trans (forward_alg trans S feats mask).2 S mask tags) / B

/-- The spec-side "previous tag of the transition taken at step `t`":
`START` at `t = 0`, `tags (t - 1)` afterwards. -/
def prevTag {L : ℕ} (tags : ℕ → Fin (L + 2)) : ℕ → Fin (L + 2)
  | 0 => startIdx L
  | t + 1 => tags t

theorem gatherFlat_eq {L : ℕ} (f : Fin (L + 2) → Fin (L + 2) → ℝ)
    (i j : Fin (L + 2)) : gatherFlat f (i.val * (L + 2) + j.val) = f i j := by
  have hij : i.val * (L + 2) + j.val < (L + 2) * (L + 2) := by
    have hi := i.isLt
    have hj := j.isLt
    calc i.val * (L + 2) + j.val < (i.val + 1) * (L + 2) := by ring_nf; omega
    _ ≤ (L + 2) * (L + 2) := Nat.mul_le_mul_right _ (by omega)
  have hdiv : (i.val * (L + 2) + j.val) / (L + 2) = i.val := by
    rw [show i.val * (L + 2) + j.val = j.val + (L + 2) * i.val by ring,
      Nat.add_mul_div_left _ _ (by omega : 0 < L + 2),
      Nat.div_eq_of_lt j.isLt, Nat.zero_add]
  have hmod : (i.val * (L + 2) + j.val) % (L + 2) = j.val := by
    rw [show i.val * (L + 2) + j.val = j.val + (L + 2) * i.val by ring,
      Nat.add_mul_mod_self_left, Nat.mod_eq_of_lt j.isLt]
  rw [gatherFlat, dif_pos hij]
  congr 1
  · exact Fin.ext hdiv
  · exact Fin.ext hmod

/-- The gathered energy at step `t` is exactly the pairwise score of the
transition the gold path takes there. -/
theorem tg_energy_eq {L : ℕ} (scores_row : ℕ → Fin (L + 2) → Fin (L + 2) → ℝ)
    (tags : ℕ → Fin (L + 2)) (t : ℕ) :
    tg_energy scores_row tags t = scores_row t (prevTag tags t) (tags t) := by
  cases t with
  | zero =>
    have hn : newTags tags 0 = (startIdx L).val * (L + 2) + (tags 0).val := by
      rw [newTags, if_pos rfl]
      congr 2
    rw [tg_energy, hn, gatherFlat_eq]
    rfl
  | succ t =>
    have hn : newTags tags (t + 1) = (tags t).val * (L + 2) + (tags (t + 1)).val := by
      rw [newTags, if_neg (by omega), Nat.add_sub_cancel]
    rw [tg_energy, hn, gatherFlat_eq]
    rfl

/-- A sum masked by a contiguous-prefix mask is the sum over the prefix. -/
theorem sum_masked_contig {mask : ℕ → Bool} {l S : ℕ} (h : isContigMask mask l)
    (hS : l ≤ S) (f : ℕ → ℝ) :
    (∑ t ∈ Finset.range S, if mask t then f t else 0)
      = ∑ t ∈ Finset.range l, f t := by
  have hcongr : ∀ t ∈ Finset.range S, (if mask t then f t else 0)
      = (if t < l then f t else 0) := by
    intro t _
    by_cases hc : t < l
    · rw [if_pos ((h t).2 hc), if_pos hc]
    · rw [if_neg (fun hm => hc ((h t).1 hm)), if_neg hc]
  rw [Finset.sum_congr rfl hcongr, ← Finset.sum_filter]
  congr 1
  ext t
  simp only [Finset.mem_filter, Finset.mem_range]
  omega

/-- Per-row form of `_score_sentence` with the mask resolved. -/
theorem score_sentence_row_eq {L : ℕ} (trans : Fin (L + 2) → Fin (L + 2) → ℝ)
    (scores_row : ℕ → Fin (L + 2) → Fin (L + 2) → ℝ) {mask : ℕ → Bool}
    {l S : ℕ} (tags : ℕ → Fin (L + 2)) (h : isContigMask mask l) (hS : l ≤ S) :
    score_sentence_row trans scores_row S mask tags
      = (∑ t ∈ Finset.range l, scores_row t (prevTag tags t) (tags t))
        + trans (tags (l - 1)) (endIdx L) := by
  rw [score_sentence_row, maskSum_of_contig h, min_eq_left hS,
    sum_masked_contig h hS]
  congr 1
  exact Finset.sum_congr rfl fun t _ => tg_energy_eq scores_row tags t

/-- The gold sum of pairwise scores along a path equals the spec-side
`prefScore` of that path. -/
theorem goldSum_eq_prefScore {L : ℕ} (trans : Fin (L + 2) → Fin (L + 2) → ℝ)
    (feats : ℕ → Fin (L + 2) → ℝ) (tags : ℕ → Fin (L + 2)) :
    ∀ n, (∑ t ∈ Finset.range n, scoresRow trans feats t (prevTag tags t) (tags t))
      = prefScore trans feats tags n := by
  intro n
  induction n with
  | zero => rfl
  | succ n ih =>
    rw [Finset.sum_range_succ, ih]
    cases n with
    | zero =>
      simp only [prefScore, prevTag, scoresRow]
      ring
    | succ m =>
      simp only [prefScore, prevTag, scoresRow]
      ring

/-- `init_transitions` as built by `CRF.__init__`: `torch.zeros`, then
column `START_TAG_IDX` is set to `-10000.0`, then row `END_TAG_IDX` is
set to `-10000.0` (the later row assignment wins on the overlap). -/
def init_transitions (L : ℕ) : Fin (L + 2) → Fin (L + 2) → ℝ := fun i j =>
  if i = endIdx L then -10000 else if j = startIdx L then -10000 else 0

/-- `CRF.__init__` as a fallible constructor over the raw integer
`num_labels` argument. Two error paths exist, in program order:
`torch.zeros(num_labels + 2, num_labels + 2)` raises iff the dimension
`num_labels + 2` is negative; then
`init_transitions[:, self.START_TAG_IDX] = -10000.0` (index `-2`)
raises IndexError unless the dimension size `num_labels + 2` is at least
`2` (the later `[-1, :]` assignment needs size at least `1`, already
implied). There is no other check. On success the negative indices
`-2` / `-1` address row/column `num_labels` / `num_labels + 1`. -/
def crf_init (num_labels : ℤ) : Option (ℤ → ℤ → ℝ) :=
  if 0 ≤ num_labels + 2 then
    if 2 ≤ num_labels + 2 then
      some (fun i j =>
        if i = num_labels + 1 then -10000 else if j = num_labels then -10000 else 0)
    else none
  else none

/-- The running best-score `partition` of `CRF._viterbi_decode` (per
batch row): initialized from the `START` row of the step-0 pairwise
scores, then `torch.max` over the "from" axis at every later step
(unlike the forward pass, the mask is not consulted here; only the
backpointers are masked). -/
noncomputable def vitPartition {L : ℕ} (trans : Fin (L + 2) → Fin (L + 2) → ℝ)
    (feats : ℕ → Fin (L + 2) → ℝ) : ℕ → Fin (L + 2) → ℝ
  | 0 => fun j => scoresRow trans feats 0 (startIdx L) j
  | t + 1 => fun j =>
    vmax (L + 1) fun i =>
      scoresRow trans feats (t + 1) i j + vitPartition trans feats t i

/-- `cur_bp` at step `s ≥ 1` of `_viterbi_decode`, before masking: the
argmax index of the `torch.max` that produced `partition[s]`. -/
noncomputable def vitBp {L : ℕ} (trans : Fin (L + 2) → Fin (L + 2) → ℝ)
    (feats : ℕ → Fin (L + 2) → ℝ) (s : ℕ) (j : Fin (L + 2)) : Fin (L + 2) :=
  vargmax (L + 1) fun i =>
    scoresRow trans feats s i j + vitPartition trans feats (s - 1) i

/-- `pointer = last_bp[:, END_TAG_IDX]`: the partition row is gathered at
each row's true last position (`length_mask - 1`), combined with one more
transition, and the argmax into `END` is selected. -/
noncomputable def finalPointer {L : ℕ} (trans : Fin (L + 2) → Fin (L + 2) → ℝ)
    (feats : ℕ → Fin (L + 2) → ℝ) (mask : ℕ → Bool) (S : ℕ) : Fin (L + 2) :=
  vargmax (L + 1) fun i =>
    vitPartition trans feats (maskSum S mask - 1) i + trans i (endIdx L)

/-- The `back_points` tensor of `_viterbi_decode` after assembly, per
batch row: entry `t` holds `cur_bp` of step `t + 1` (`masked_fill_`-ed to
`0` where `mask[t + 1] = 0`), a `pad_zero` row at `t = seq_len - 1`, and
the `scatter_` of the final pointer over every tag column at the row's
last valid position `length_mask - 1`. -/
noncomputable def backPoints {L : ℕ} (trans : Fin (L + 2) → Fin (L + 2) → ℝ)
    (feats : ℕ → Fin (L + 2) → ℝ) (mask : ℕ → Bool) (S : ℕ) (t : ℕ)
    (j : Fin (L + 2)) : Fin (L + 2) :=
  if t = maskSum S mask - 1 then finalPointer trans feats mask S
  else if t < S - 1 then
    (if mask (t + 1) then vitBp trans feats (t + 1) j else ⟨0, by omega⟩)
  else ⟨0, by omega⟩

/-- The backward reconstruction loop of `_viterbi_decode`:
`decAux k` is the `pointer` value after `k` backward steps from position
`seq_len - 1`. -/
noncomputable def decAux {L : ℕ} (trans : Fin (L + 2) → Fin (L + 2) → ℝ)
    (feats : ℕ → Fin (L + 2) → ℝ) (mask : ℕ → Bool) (S : ℕ) : ℕ → Fin (L + 2)
  | 0 => finalPointer trans feats mask S
  | k + 1 => backPoints trans feats mask S (S - 1 - (k + 1))
      (decAux trans feats mask S k)

/-- `decode_idx` of `_viterbi_decode`, per batch row: position `t` holds
the pointer value when the backward loop reaches `t`. -/
noncomputable def decode_idx {L : ℕ} (trans : Fin (L + 2) → Fin (L + 2) → ℝ)
    (feats : ℕ → Fin (L + 2) → ℝ) (mask : ℕ → Bool) (S : ℕ) (t : ℕ) :
    Fin (L + 2) :=
  decAux trans feats mask S (S - 1 - t)

/-- `CRF._viterbi_decode` on a batch. -/
noncomputable def viterbi_decode {L B : ℕ} (trans : Fin (L + 2) → Fin (L + 2) → ℝ)
    (S : ℕ) (feats : Fin B → ℕ → Fin (L + 2) → ℝ) (mask : Fin B → ℕ → Bool) :
    Fin B → ℕ → Fin (L + 2) :=
  fun b t => decode_idx trans (feats b) (mask b) S t

/-- `CRF.forward`: returns the Viterbi best path. -/
noncomputable def forward {L B : ℕ} (trans : Fin (L + 2) → Fin (L + 2) → ℝ)
    (S : ℕ) (feats : Fin B → ℕ → Fin (L + 2) → ℝ) (mask : Fin B → ℕ → Bool) :
    Fin B → ℕ → Fin (L + 2) :=
  viterbi_decode trans S feats mask

/-- DP upper bound: every path's prefix score is at most the Viterbi
partition value at the path's current tag. -/
theorem prefScore_le_vitPartition {L : ℕ} (trans : Fin (L + 2) → Fin (L + 2) → ℝ)
    (feats : ℕ → Fin (L + 2) → ℝ) :
    ∀ (t : ℕ) (y : ℕ → Fin (L + 2)),
      prefScore trans feats y (t + 1) ≤ vitPartition trans feats t (y t) := by
  intro t
  induction t with
  | zero =>
    intro y
    refine le_of_eq ?_
    simp only [prefScore, vitPartition, scoresRow]
    ring
  | succ t ih =>
    intro y
    have hstep : prefScore trans feats y (t + 2)
        = prefScore trans feats y (t + 1) +
          (trans (y t) (y (t + 1)) + feats (t + 1) (y (t + 1))) := by
      simp only [prefScore]
    rw [hstep]
    have h1 : prefScore trans feats y (t + 1) +
          (trans (y t) (y (t + 1)) + feats (t + 1) (y (t + 1)))
        ≤ scoresRow trans feats (t + 1) (y t) (y (t + 1)) +
          vitPartition trans feats t (y t) := by
      have := add_le_add_right (ih y)
        (trans (y t) (y (t + 1)) + feats (t + 1) (y (t + 1)))
      calc prefScore trans feats y (t + 1) +
            (trans (y t) (y (t + 1)) + feats (t + 1) (y (t + 1)))
          ≤ vitPartition trans feats t (y t) +
            (trans (y t) (y (t + 1)) + feats (t + 1) (y (t + 1))) := this
        _ = scoresRow trans feats (t + 1) (y t) (y (t + 1)) +
            vitPartition trans feats t (y t) := by simp only [scoresRow]; ring
    exact le_trans h1 (le_vmax
      (fun i => scoresRow trans feats (t + 1) i (y (t + 1)) +
        vitPartition trans feats t i) (y t))

/-- The path reconstructed by following backpointers down from tag `j`
at position `t`. -/
noncomputable def pathFrom {L : ℕ} (trans : Fin (L + 2) → Fin (L + 2) → ℝ)
    (feats : ℕ → Fin (L + 2) → ℝ) : ℕ → Fin (L + 2) → ℕ → Fin (L + 2)
  | 0, j, _ => j
  | t + 1, j, s =>
    if s ≤ t then pathFrom trans feats t (vitBp trans feats (t + 1) j) s else j

theorem pathFrom_self {L : ℕ} (trans : Fin (L + 2) → Fin (L + 2) → ℝ)
    (feats : ℕ → Fin (L + 2) → ℝ) : ∀ t j, pathFrom trans feats t j t = j := by
  intro t j
  cases t with
  | zero => rfl
  | succ t => exact if_neg (by omega)

/-- The backpointer path attains the Viterbi partition value. -/
theorem pathFrom_attains {L : ℕ} (trans : Fin (L + 2) → Fin (L + 2) → ℝ)
    (feats : ℕ → Fin (L + 2) → ℝ) :
    ∀ t j, prefScore trans feats (pathFrom trans feats t j) (t + 1)
      = vitPartition trans feats t j := by
  intro t
  induction t with
  | zero =>
    intro j
    simp only [prefScore, pathFrom, vitPartition, scoresRow]
    ring
  | succ t ih =>
    intro j
    have hself : pathFrom trans feats (t + 1) j (t + 1) = j :=
      pathFrom_self trans feats (t + 1) j
    have hat : pathFrom trans feats (t + 1) j t = vitBp trans feats (t + 1) j := by
      rw [show pathFrom trans feats (t + 1) j t
          = pathFrom trans feats t (vitBp trans feats (t + 1) j) t from
        if_pos (by omega)]
      exact pathFrom_self trans feats t _
    have hcongr : prefScore trans feats (pathFrom trans feats (t + 1) j) (t + 1)
        = prefScore trans feats
            (pathFrom trans feats t (vitBp trans feats (t + 1) j)) (t + 1) :=
      prefScore_congr trans feats (t + 1) _ _ fun s hs => if_pos (by omega)
    have hstep : prefScore trans feats (pathFrom trans feats (t + 1) j) (t + 2)
        = prefScore trans feats (pathFrom trans feats (t + 1) j) (t + 1) +
          (trans (pathFrom trans feats (t + 1) j t)
              (pathFrom trans feats (t + 1) j (t + 1)) +
            feats (t + 1) (pathFrom trans feats (t + 1) j (t + 1))) := by
      simp only [prefScore]
    rw [hstep, hcongr, ih, hself, hat]
    have hv : scoresRow trans feats (t + 1) (vitBp trans feats (t + 1) j) j +
          vitPartition trans feats t (vitBp trans feats (t + 1) j)
        = vitPartition trans feats (t + 1) j := by
      have := vargmax_eq_vmax
        (fun i => scoresRow trans feats (t + 1) i j + vitPartition trans feats t i)
      exact this
    rw [← hv]
    simp only [scoresRow]
    ring

/-- Below its apex, the backpointer path satisfies the backpointer
recursion. -/
theorem pathFrom_step {L : ℕ} (trans : Fin (L + 2) → Fin (L + 2) → ℝ)
    (feats : ℕ → Fin (L + 2) → ℝ) :
    ∀ t j s, s < t → pathFrom trans feats t j s
      = vitBp trans feats (s + 1) (pathFrom trans feats t j (s + 1)) := by
  intro t
  induction t with
  | zero => intro j s hs; omega
  | succ t ih =>
    intro j s hs
    by_cases hlt : s < t
    · rw [show pathFrom trans feats (t + 1) j s
          = pathFrom trans feats t (vitBp trans feats (t + 1) j) s from
        if_pos (by omega)]
      rw [show pathFrom trans feats (t + 1) j (s + 1)
          = pathFrom trans feats t (vitBp trans feats (t + 1) j) (s + 1) from
        if_pos (by omega)]
      exact ih _ s hlt
    · have hst : s = t := by omega
      subst hst
      rw [show pathFrom trans feats (s + 1) j s
          = pathFrom trans feats s (vitBp trans feats (s + 1) j) s from
        if_pos (by omega)]
      rw [pathFrom_self trans feats s _, pathFrom_self trans feats (s + 1) j]

/-- In the backward loop, every pointer strictly between the end of the
sequence and the row's last valid position reads a zeroed backpointer
row. -/
theorem decAux_zero_run {L : ℕ} (trans : Fin (L + 2) → Fin (L + 2) → ℝ)
    (feats : ℕ → Fin (L + 2) → ℝ) {mask : ℕ → Bool} {m S : ℕ}
    (h : isContigMask mask (m + 1)) (hS : m + 1 ≤ S) :
    ∀ k, 1 ≤ k → k + m + 1 ≤ S - 1 →
      decAux trans feats mask S k = (⟨0, by omega⟩ : Fin (L + 2)) := by
  have hms : maskSum S mask = m + 1 := by
    rw [maskSum_of_contig h]; omega
  intro k
  induction k with
  | zero => omega
  | succ k _ =>
    intro _ hk
    rw [decAux, backPoints, hms]
    rw [if_neg (by omega)]
    rw [if_pos (by omega)]
    have hmf : mask (S - 1 - (k + 1) + 1) = false := by
      have hnot : ¬ mask (S - 1 - (k + 1) + 1) = true := fun hm => by
        have := (h _).1 hm; omega
      exact (Bool.not_eq_true _) ▸ hnot
    rw [hmf]
    simp only [Bool.false_eq_true, if_false]

/-- The pointer reaching the row's last valid position is the final
pointer (from the `scatter_` of `insert_last` over all tag columns). -/
theorem decAux_at_last {L : ℕ} (trans : Fin (L + 2) → Fin (L + 2) → ℝ)
    (feats : ℕ → Fin (L + 2) → ℝ) {mask : ℕ → Bool} {m S : ℕ}
    (h : isContigMask mask (m + 1)) (hS : m + 1 ≤ S) :
    decAux trans feats mask S (S - 1 - m) = finalPointer trans feats mask S := by
  have hms : maskSum S mask = m + 1 := by
    rw [maskSum_of_contig h]; omega
  rcases Nat.eq_zero_or_pos (S - 1 - m) with h0 | hpos
  · rw [h0, decAux]
  · obtain ⟨k, hk⟩ : ∃ k, S - 1 - m = k + 1 := ⟨S - 1 - m - 1, by omega⟩
    rw [hk, decAux]
    have ht : S - 1 - (k + 1) = m := by omega
    rw [ht, backPoints, hms, if_pos (by omega)]

/-- Within the row's true length, the decoded path is the backpointer
path descending from the final pointer at the last valid position. -/
theorem decode_within {L : ℕ} (trans : Fin (L + 2) → Fin (L + 2) → ℝ)
    (feats : ℕ → Fin (L + 2) → ℝ) {mask : ℕ → Bool} {m S : ℕ}
    (h : isContigMask mask (m + 1)) (hS : m + 1 ≤ S) :
    ∀ t, t ≤ m → decode_idx trans feats mask S t
      = pathFrom trans feats m (finalPointer trans feats mask S) t := by
  have hms : maskSum S mask = m + 1 := by
    rw [maskSum_of_contig h]; omega
  have main : ∀ d t, t + d = m → decode_idx trans feats mask S t
      = pathFrom trans feats m (finalPointer trans feats mask S) t := by
    intro d
    induction d with
    | zero =>
      intro t ht
      have htm : t = m := by omega
      subst htm
      rw [decode_idx, decAux_at_last trans feats h hS,
        pathFrom_self trans feats t _]
    | succ d ih =>
      intro t ht
      have hih := ih (t + 1) (by omega)
      have hk : S - 1 - t = (S - 1 - (t + 1)) + 1 := by omega
      rw [decode_idx, hk, decAux]
      have ht2 : S - 1 - (S - 1 - (t + 1) + 1) = t := by omega
      rw [ht2]
      have hprev : decAux trans feats mask S (S - 1 - (t + 1))
          = pathFrom trans feats m (finalPointer trans feats mask S) (t + 1) := hih
      rw [hprev, backPoints, hms, if_neg (by omega), if_pos (by omega),
        (h (t + 1)).2 (by omega), if_pos rfl]
      exact (pathFrom_step trans feats m _ t (by omega)).symm
  intro t ht
  exact main (m - t) t (by omega)

/-- C1: for every batch element of true length `l b` (contiguous
non-empty mask prefix), the path returned by `CRF.forward`
(`_viterbi_decode`) attains the maximum total path score
`Trans[START, y 0] + Em[0, y 0] + ∑ (Trans[y (t-1), y t] + Em[t, y t]) + Trans[y (l-1), END]`
over all length-`l b` tag sequences drawn from all `L + 2` tags. -/
theorem crf_viterbi_optimal {L B : ℕ} (trans : Fin (L + 2) → Fin (L + 2) → ℝ)
    (S : ℕ) (feats : Fin B → ℕ → Fin (L + 2) → ℝ) (mask : Fin B → ℕ → Bool)
    (l : Fin B → ℕ) (hmask : ∀ b, isContigMask (mask b) (l b))
    (hl : ∀ b, 1 ≤ l b) (hS : ∀ b, l b ≤ S) (b : Fin B) (y : ℕ → Fin (L + 2)) :
    prefScore trans (feats b) y (l b) + trans (y (l b - 1)) (endIdx L)
      ≤ prefScore trans (feats b) (forward trans S feats mask b) (l b)
        + trans (forward trans S feats mask b (l b - 1)) (endIdx L) := by
  obtain ⟨m, hm⟩ : ∃ m, l b = m + 1 := ⟨l b - 1, by have := hl b; omega⟩
  have hcm : isContigMask (mask b) (m + 1) := hm ▸ hmask b
  have hSm : m + 1 ≤ S := hm ▸ hS b
  have hms : maskSum S (mask b) = m + 1 := by
    rw [maskSum_of_contig hcm]; omega
  rw [hm, Nat.add_sub_cancel]
  have hfwd : ∀ t, forward trans S feats mask b t
      = decode_idx trans (feats b) (mask b) S t := fun t => rfl
  have hwithin : ∀ t, t ≤ m → forward trans S feats mask b t
      = pathFrom trans (feats b) m (finalPointer trans (feats b) (mask b) S) t := by
    intro t ht
    rw [hfwd t]
    exact decode_within trans (feats b) hcm hSm t ht
  have hcongr : prefScore trans (feats b) (forward trans S feats mask b) (m + 1)
      = prefScore trans (feats b)
          (pathFrom trans (feats b) m (finalPointer trans (feats b) (mask b) S))
          (m + 1) :=
    prefScore_congr trans (feats b) (m + 1) _ _ fun s hs => hwithin s (by omega)
  have hatm : forward trans S feats mask b m
      = finalPointer trans (feats b) (mask b) S := by
    rw [hwithin m (le_refl m), pathFrom_self]
  rw [hcongr, hatm, pathFrom_attains trans (feats b) m _]
  have hfp : finalPointer trans (feats b) (mask b) S
      = vargmax (L + 1) (fun i =>
          vitPartition trans (feats b) m i + trans i (endIdx L)) := by
    rw [finalPointer, hms]
    simp only [Nat.add_sub_cancel]
  have hrhs : vitPartition trans (feats b) m
        (finalPointer trans (feats b) (mask b) S) +
        trans (finalPointer trans (feats b) (mask b) S) (endIdx L)
      = vmax (L + 1) (fun i =>
          vitPartition trans (feats b) m i + trans i (endIdx L)) := by
    rw [hfp]
    exact vargmax_eq_vmax
      (fun i => vitPartition trans (feats b) m i + trans i (endIdx L))
  rw [hrhs]
  calc prefScore trans (feats b) y (m + 1) + trans (y m) (endIdx L)
      ≤ vitPartition trans (feats b) m (y m) + trans (y m) (endIdx L) :=
        add_le_add_right (prefScore_le_vitPartition trans (feats b) m y) _
    _ ≤ vmax (L + 1) (fun i =>
          vitPartition trans (feats b) m i + trans i (endIdx L)) :=
        le_vmax (fun i => vitPartition trans (feats b) m i + trans i (endIdx L))
          (y m)

/-- C2: the first value returned by `_forward_alg` is the sum, over
batch elements, of the log of the sum over all tag sequences of the
row's true length of the exponentiated total path score (final
transition into `END` included); the second value is the tensor with
entry `[t, b, i, j]` equal to `Emission[b, t, j] + Trans[i, j]`. -/
theorem crf_forward_alg_correct {L B : ℕ} (trans : Fin (L + 2) → Fin (L + 2) → ℝ)
    (S : ℕ) (feats : Fin B → ℕ → Fin (L + 2) → ℝ) (mask : Fin B → ℕ → Bool)
    (l : Fin B → ℕ) (hmask : ∀ b, isContigMask (mask b) (l b))
    (hl : ∀ b, 1 ≤ l b) (hS : ∀ b, l b ≤ S) :
    (forward_alg trans S feats mask).1
        = ∑ b, Real.log (pathSum trans (feats b) (l b)) ∧
    ∀ t b i j, (forward_alg trans S feats mask).2 t b i j
        = feats b t j + trans i j := by
  constructor
  · show (∑ b, forward_score_row trans S (feats b) (mask b)) = _
    exact Finset.sum_congr rfl fun b _ =>
      forward_score_row_eq trans (feats b) (hmask b) (hl b) (hS b)
  · intro t b i j; rfl

/-- C6: `_score_sentence` returns, per batch element, the sum over valid
steps of the pairwise entry of the transition actually taken (from
`START` into `tags[b, 0]` at `t = 0`, from `tags[b, t-1]` into
`tags[b, t]` afterwards), plus the transition score from the true last
tag into `END`. -/
theorem crf_score_sentence_correct {L B : ℕ}
    (trans : Fin (L + 2) → Fin (L + 2) → ℝ) (S : ℕ)
    (scores : ℕ → Fin B → Fin (L + 2) → Fin (L + 2) → ℝ)
    (mask : Fin B → ℕ → Bool) (tags : Fin B → ℕ → Fin (L + 2)) (l : Fin B → ℕ)
    (hmask : ∀ b, isContigMask (mask b) (l b)) (hl : ∀ b, 1 ≤ l b)
    (hS : ∀ b, l b ≤ S) (htags : ∀ b t, t < l b → (tags b t).val < L) :
    score_sentence trans scores S mask tags
      = ∑ b, ((∑ t ∈ Finset.range (l b),
            scores t b (prevTag (tags b) t) (tags b t))
          + trans (tags b (l b - 1)) (endIdx L)) := by
  rw [score_sentence]
  exact Finset.sum_congr rfl fun b _ =>
    score_sentence_row_eq trans (fun t => scores t b) (tags b) (hmask b) (hS b)

/-- Per batch row, the gold-path score is dominated by the forward
log-partition: the gold path is one term of the log-sum-exp. -/
theorem gold_le_forward_row {L : ℕ} (trans : Fin (L + 2) → Fin (L + 2) → ℝ)
    (feats : ℕ → Fin (L + 2) → ℝ) {mask : ℕ → Bool} {l S : ℕ}
    (tags : ℕ → Fin (L + 2)) (h : isContigMask mask l) (hl : 1 ≤ l)
    (hS : l ≤ S) :
    score_sentence_row trans (fun t => scoresRow trans feats t) S mask tags
      ≤ forward_score_row trans S feats mask := by
  rw [score_sentence_row_eq trans _ tags h hS,
    forward_score_row_eq trans feats h hl hS, goldSum_eq_prefScore]
  have hterm : Real.exp (prefScore trans feats tags l +
        trans (tags (l - 1)) (endIdx L)) ≤ pathSum trans feats l := by
    have hsingle := Finset.single_le_sum
      (f := fun y : Fin l → Fin (L + 2) => Real.exp
        (prefScore trans feats (extendPath l y) l +
          trans (extendPath l y (l - 1)) (endIdx L)))
      (fun y _ => le_of_lt (Real.exp_pos _))
      (Finset.mem_univ (fun i : Fin l => tags i.val))
    have hext : ∀ s, s < l →
        extendPath l (fun i : Fin l => tags i.val) s = tags s := fun s hs => by
      rw [extendPath_of_lt _ hs]
    have hps : prefScore trans feats
          (extendPath l (fun i : Fin l => tags i.val)) l
        = prefScore trans feats tags l :=
      prefScore_congr trans feats l _ _ fun s hs => hext s hs
    have hlast : extendPath l (fun i : Fin l => tags i.val) (l - 1)
        = tags (l - 1) := hext (l - 1) (by omega)
    calc Real.exp (prefScore trans feats tags l + trans (tags (l - 1)) (endIdx L))
        = Real.exp (prefScore trans feats
              (extendPath l fun i : Fin l => tags i.val) l +
            trans (extendPath l (fun i : Fin l => tags i.val) (l - 1)) (endIdx L)) := by
          rw [hps, hlast]
      _ ≤ pathSum trans feats l := hsingle
  calc prefScore trans feats tags l + trans (tags (l - 1)) (endIdx L)
      = Real.log (Real.exp (prefScore trans feats tags l +
          trans (tags (l - 1)) (endIdx L))) := (Real.log_exp _).symm
    _ ≤ Real.log (pathSum trans feats l) :=
        Real.log_le_log (Real.exp_pos _) hterm

/-- C3: the forward log-partition sum dominates the gold-path score, so
`neg_log_likelihood_loss = (forward - gold) / batch_size` is
non-negative. -/
theorem crf_loss_nonneg {L B : ℕ} (trans : Fin (L + 2) → Fin (L + 2) → ℝ)
    (S : ℕ) (feats : Fin B → ℕ → Fin (L + 2) → ℝ) (mask : Fin B → ℕ → Bool)
    (tags : Fin B → ℕ → Fin (L + 2)) (l : Fin B → ℕ)
    (hmask : ∀ b, isContigMask (mask b) (l b)) (hl : ∀ b, 1 ≤ l b)
    (hS : ∀ b, l b ≤ S) (htags : ∀ b t, t < l b → (tags b t).val < L) :
    score_sentence trans (forward_alg trans S feats mask).2 S mask tags
        ≤ (forward_alg trans S feats mask).1 ∧
    0 ≤ neg_log_likelihood_loss trans S feats mask tags := by
  have hle : score_sentence trans (forward_alg trans S feats mask).2 S mask tags
      ≤ (forward_alg trans S feats mask).1 := by
    show (∑ b, score_sentence_row trans
        (fun t => scoresRow trans (feats b) t) S (mask b) (tags b))
      ≤ ∑ b, forward_score_row trans S (feats b) (mask b)
    exact Finset.sum_le_sum fun b _ =>
      gold_le_forward_row trans (feats b) (tags b) (hmask b) (hl b) (hS b)
  refine ⟨hle, ?_⟩
  rw [neg_log_likelihood_loss]
  exact div_nonneg (sub_nonneg.2 hle) (Nat.cast_nonneg B)

/-- C7: after construction, the transitions matrix has `-10000.0` on the
whole `START` column and the whole `END` row, and `0.0` everywhere
else. -/
theorem crf_init_transitions_spec (L : ℕ) :
    (∀ i, init_transitions L i (startIdx L) = -10000) ∧
    (∀ j, init_transitions L (endIdx L) j = -10000) ∧
    ∀ i j, i ≠ endIdx L → j ≠ startIdx L → init_transitions L i j = 0 := by
  refine ⟨fun i => ?_, fun j => ?_, fun i j hi hj => ?_⟩
  · simp only [init_transitions]
    by_cases h : i = endIdx L
    · rw [if_pos h]
    · rw [if_neg h]
      simp
  · simp only [init_transitions]
    simp
  · simp only [init_transitions]
    rw [if_neg hi, if_neg hj]

/-- C8: gold tags that agree on all valid (mask = 1) positions give
exactly the same loss, whatever the tags hold at padded positions. -/
theorem crf_loss_tags_agree {L B : ℕ} (trans : Fin (L + 2) → Fin (L + 2) → ℝ)
    (S : ℕ) (feats : Fin B → ℕ → Fin (L + 2) → ℝ) (mask : Fin B → ℕ → Bool)
    (tags₁ tags₂ : Fin B → ℕ → Fin (L + 2)) (l : Fin B → ℕ)
    (hmask : ∀ b, isContigMask (mask b) (l b)) (hl : ∀ b, 1 ≤ l b)
    (hS : ∀ b, l b ≤ S) (hagree : ∀ b t, t < l b → tags₁ b t = tags₂ b t) :
    neg_log_likelihood_loss trans S feats mask tags₁
      = neg_log_likelihood_loss trans S feats mask tags₂ := by
  rw [neg_log_likelihood_loss, neg_log_likelihood_loss]
  have hscore : score_sentence trans (forward_alg trans S feats mask).2 S mask tags₁
      = score_sentence trans (forward_alg trans S feats mask).2 S mask tags₂ := by
    rw [score_sentence, score_sentence]
    refine Finset.sum_congr rfl fun b _ => ?_
    rw [score_sentence_row_eq trans _ (tags₁ b) (hmask b) (hS b),
      score_sentence_row_eq trans _ (tags₂ b) (hmask b) (hS b)]
    congr 1
    · refine Finset.sum_congr rfl fun t ht => ?_
      rw [Finset.mem_range] at ht
      have htv : tags₁ b t = tags₂ b t := hagree b t ht
      cases t with
      | zero => rw [htv]; rfl
      | succ s =>
        have hsv : tags₁ b s = tags₂ b s := hagree b s (by omega)
        show (forward_alg trans S feats mask).2 (s + 1) b (tags₁ b s) (tags₁ b (s + 1))
          = (forward_alg trans S feats mask).2 (s + 1) b (tags₂ b s) (tags₂ b (s + 1))
        rw [htv, hsv]
    · rw [hagree b (l b - 1) (by have := hl b; omega)]
  rw [hscore]

/-- C9 counterexample: constructing a CRF with `num_labels = 0` is *not*
rejected — `torch.zeros(2, 2)` and the two sentinel assignments succeed,
there is no validation in `__init__` at all. -/
theorem crf_init_counterexample : ¬ ∀ n : ℤ, n < 1 → crf_init n = none := by
  intro hcl
  have h0 := hcl 0 (by norm_num)
  rw [crf_init, if_pos (by norm_num), if_pos (by norm_num)] at h0
  exact Option.some_ne_none _ h0

/-- C9 (amended): `CRF.__init__` performs no validation on the label
count: it succeeds for every `num_labels ≥ 1` without further checks,
and also for `num_labels = 0`. It fails exactly when `num_labels < 0`:
for `num_labels < -2` because `torch.zeros` rejects a negative
dimension, and for `num_labels = -1` or `-2` because the sentinel
assignment `init_transitions[:, -2]` raises IndexError on a dimension
of size `1` or `0`. -/
theorem crf_init_amended (n : ℤ) : (crf_init n).isSome = true ↔ 0 ≤ n := by
  rw [crf_init]
  by_cases h : (0 : ℤ) ≤ n + 2
  · rw [if_pos h]
    by_cases h2 : (2 : ℤ) ≤ n + 2
    · rw [if_pos h2]
      simp only [Option.isSome_some, true_iff]
      omega
    · rw [if_neg h2]
      simp only [Option.isSome_none, Bool.false_eq_true, false_iff]
      omega
  · rw [if_neg h]
    simp only [Option.isSome_none, Bool.false_eq_true, false_iff]
    omega

theorem maskSum_all_true (S : ℕ) : maskSum S (fun _ => true) = S := by
  rw [maskSum]
  simp

/-- Gold row under an all-ones mask whose length is exactly the true
length. -/
theorem score_sentence_row_all_true {L : ℕ}
    (trans : Fin (L + 2) → Fin (L + 2) → ℝ)
    (scores_row : ℕ → Fin (L + 2) → Fin (L + 2) → ℝ) (l : ℕ)
    (tags : ℕ → Fin (L + 2)) :
    score_sentence_row trans scores_row l (fun _ => true) tags
      = (∑ t ∈ Finset.range l, scores_row t (prevTag tags t) (tags t))
        + trans (tags (l - 1)) (endIdx L) := by
  rw [score_sentence_row, maskSum_all_true]
  congr 1
  have hite : ∀ t : ℕ,
      (if (fun _ : ℕ => true) t then tg_energy scores_row tags t else 0)
        = tg_energy scores_row tags t := fun t => if_pos rfl
  simp only [hite]
  exact Finset.sum_congr rfl fun t _ => tg_energy_eq scores_row tags t

/-- C5: per batch element, the forward log-partition and the gold-path
score are the same whether the sequence is presented alone
(`seq_len = l`, all-ones mask) or right-padded to a longer `seq_len`
with arbitrary emissions and tags in the padded region. -/
theorem crf_padding_invariance {L : ℕ} (trans : Fin (L + 2) → Fin (L + 2) → ℝ)
    {l S₂ : ℕ} (feats₁ feats₂ : ℕ → Fin (L + 2) → ℝ) {mask₂ : ℕ → Bool}
    (tags₁ tags₂ : ℕ → Fin (L + 2)) (h₂ : isContigMask mask₂ l) (hl : 1 ≤ l)
    (hS₂ : l ≤ S₂) (hf : ∀ t, t < l → ∀ j, feats₁ t j = feats₂ t j)
    (htg : ∀ t, t < l → tags₁ t = tags₂ t) :
    forward_score_row trans l feats₁ (fun _ => true)
        = forward_score_row trans S₂ feats₂ mask₂ ∧
    score_sentence_row trans (fun t => scoresRow trans feats₁ t) l
        (fun _ => true) tags₁
      = score_sentence_row trans (fun t => scoresRow trans feats₂ t) S₂
        mask₂ tags₂ := by
  constructor
  · rw [forward_score_row, forward_score_row]
    have hpart : fwdPartition trans feats₁ (fun _ => true) (l - 1)
        = fwdPartition trans feats₂ mask₂ (S₂ - 1) := by
      rw [fwdPartition_freeze trans feats₂ h₂ (S₂ - 1) (by omega)]
      exact fwdPartition_congr trans (l - 1)
        (fun s hs j => hf s (by omega) j)
        (fun s h1 h2 => ((h₂ s).2 (by omega)).symm)
    rw [hpart]
  · rw [score_sentence_row_all_true,
      score_sentence_row_eq trans _ tags₂ h₂ hS₂]
    congr 1
    · refine Finset.sum_congr rfl fun t ht => ?_
      rw [Finset.mem_range] at ht
      have h1 : tags₁ t = tags₂ t := htg t ht
      cases t with
      | zero =>
        simp only [scoresRow, prevTag]
        rw [h1, hf 0 ht]
      | succ s =>
        simp only [scoresRow, prevTag]
        rw [h1, hf (s + 1) ht, htg s (by omega)]
    · rw [htg (l - 1) (by omega)]

/-- C4 (amended): under a contiguous non-empty mask prefix of length
`l b ≤ S`, the decoded path is `0` at the padded positions strictly
between `l b` and `seq_len - 1`; position `seq_len - 1`, however, holds
the decoded final tag (the same value as position `l b - 1`), not the
sentinel; and in-length positions hold tag indices `< L + 2` (the
virtual `START`/`END` indices are possible, not only real tags
`< L`). -/
theorem crf_decode_padding_amended {L B : ℕ}
    (trans : Fin (L + 2) → Fin (L + 2) → ℝ) (S : ℕ)
    (feats : Fin B → ℕ → Fin (L + 2) → ℝ) (mask : Fin B → ℕ → Bool)
    (l : Fin B → ℕ) (hmask : ∀ b, isContigMask (mask b) (l b))
    (hl : ∀ b, 1 ≤ l b) (hS : ∀ b, l b ≤ S) (b : Fin B) :
    (∀ t, l b ≤ t → t < S - 1 → (forward trans S feats mask b t).val = 0) ∧
    forward trans S feats mask b (S - 1)
        = forward trans S feats mask b (l b - 1) ∧
    ∀ t, t < l b → (forward trans S feats mask b t).val < L + 2 := by
  obtain ⟨m, hm⟩ : ∃ m, l b = m + 1 := ⟨l b - 1, by have := hl b; omega⟩
  have hcm : isContigMask (mask b) (m + 1) := hm ▸ hmask b
  have hSm : m + 1 ≤ S := hm ▸ hS b
  refine ⟨?_, ?_, fun t _ => (forward trans S feats mask b t).isLt⟩
  · intro t hlt htS
    have hz := decAux_zero_run trans (feats b) hcm hSm (S - 1 - t)
      (by omega) (by omega)
    show (decAux trans (feats b) (mask b) S (S - 1 - t)).val = 0
    rw [hz]
  · have h1 : forward trans S feats mask b (S - 1)
        = decAux trans (feats b) (mask b) S 0 := by
      show decAux trans (feats b) (mask b) S (S - 1 - (S - 1)) = _
      congr 1
      omega
    have h2 : forward trans S feats mask b (l b - 1)
        = finalPointer trans (feats b) (mask b) S := by
      rw [hm, Nat.add_sub_cancel]
      show decode_idx trans (feats b) (mask b) S m = _
      rw [decode_within trans (feats b) hcm hSm m (le_refl m), pathFrom_self]
    rw [h1, h2, decAux]

/-- Concrete emission tensor (`B = 1`, `S = 2`, `L = 1`, so 3 tags):
a huge score on the virtual `START` column at step 0. -/
noncomputable def exFeats : Fin 1 → ℕ → Fin 3 → ℝ :=
  fun _ t j => if t = 0 ∧ j.val = 1 then 1000000 else 0

/-- Concrete mask: true length 1, padded to `S = 2` (`[1, 0]`). -/
def exMask : Fin 1 → ℕ → Bool := fun _ t => decide (t < 1)

theorem exMaskSum : maskSum 2 (exMask 0) = 1 := by
  simp [maskSum, exMask, Finset.sum_range_succ]

theorem exVit0 : ∀ j : Fin 3,
    vitPartition (init_transitions 1) (exFeats 0) 0 j
      = if j.val = 1 then (990000 : ℝ) else 0 := by
  intro j
  fin_cases j <;>
    norm_num [vitPartition, scoresRow, exFeats, init_transitions, startIdx,
      endIdx, Fin.ext_iff, show ((startIdx 1 : Fin 3)).val = 1 from rfl,
      show ((endIdx 1 : Fin 3)).val = 2 from rfl]

theorem exFinalPointer :
    finalPointer (init_transitions 1) (exFeats 0) (exMask 0) 2
      = (⟨1, by omega⟩ : Fin 3) := by
  rw [finalPointer, exMaskSum]
  have hg : (fun i : Fin 3 =>
        vitPartition (init_transitions 1) (exFeats 0) (1 - 1) i +
          init_transitions 1 i (endIdx 1))
      = (fun i : Fin 3 =>
        if i.val = 1 then (990000 : ℝ) else if i.val = 2 then -10000 else 0) := by
    funext i
    fin_cases i <;>
      norm_num [exVit0, init_transitions, endIdx, Fin.ext_iff,
        show ((startIdx 1 : Fin 3)).val = 1 from rfl,
        show ((endIdx 1 : Fin 3)).val = 2 from rfl]
  rw [hg]
  simp only [vargmax, vmax]
  norm_num [Fin.ext_iff, Fin.coe_castSucc, Fin.val_last, le_max_iff]

theorem exDecode1 :
    forward (init_transitions 1) 2 exFeats exMask 0 1 = (⟨1, by omega⟩ : Fin 3) := by
  show decAux (init_transitions 1) (exFeats 0) (exMask 0) 2 (2 - 1 - 1) = _
  rw [show (2 : ℕ) - 1 - 1 = 0 from rfl, decAux]
  exact exFinalPointer

theorem exDecode0 :
    forward (init_transitions 1) 2 exFeats exMask 0 0 = (⟨1, by omega⟩ : Fin 3) := by
  show decAux (init_transitions 1) (exFeats 0) (exMask 0) 2 (2 - 1 - 0) = _
  rw [show (2 : ℕ) - 1 - 0 = 0 + 1 from rfl, decAux, backPoints, exMaskSum,
    if_pos (by norm_num)]
  exact exFinalPointer

/-- C4 counterexample: on a valid input (`L = 1`, `S = 2`, contiguous
non-empty mask of true length 1, a large emission on the `START` column),
the decoded path is `1` at the padded position `t = 1` (not the sentinel
`0`), and `1` (the virtual `START` index, `≥ L = 1`) at the valid
position `t = 0` (not a real tag `< L`). -/
theorem crf_decode_padding_counterexample :
    isContigMask (exMask 0) 1 ∧
    ¬ (∀ t, 1 ≤ t → t < 2 →
        (forward (init_transitions 1) 2 exFeats exMask 0 t).val = 0) ∧
    ¬ (∀ t, t < 1 →
        (forward (init_transitions 1) 2 exFeats exMask 0 t).val < 1) := by
  refine ⟨fun t => by simp [exMask], fun hpad => ?_, fun hreal => ?_⟩
  · have h1 := hpad 1 (le_refl 1) (by norm_num)
    rw [exDecode1] at h1
    exact absurd h1 (by norm_num)
  · have h0 := hreal 0 (by norm_num)
    rw [exDecode0] at h0
    exact absurd h0 (by norm_num)

/-! Concrete instances used by the witness theorems below
(`L = 1`, `B = 1`, true length 1). -/

noncomputable def wTrans : Fin 3 → Fin 3 → ℝ := fun _ _ => 0

noncomputable def wFeats : Fin 1 → ℕ → Fin 3 → ℝ := fun _ _ _ => 0

def wMask : Fin 1 → ℕ → Bool := fun _ t => decide (t < 1)

def wTags : Fin 1 → ℕ → Fin 3 := fun _ _ => 0

def wTagsB : Fin 1 → ℕ → Fin 3 := fun _ t => if t = 0 then 0 else 1

def wLen : Fin 1 → ℕ := fun _ => 1

noncomputable def wScores : ℕ → Fin 1 → Fin 3 → Fin 3 → ℝ := fun _ _ _ _ => 0

noncomputable def wRowFeats : ℕ → Fin 3 → ℝ := fun _ _ => 0

def wRowMask : ℕ → Bool := fun t => decide (t < 1)

def wRowTags : ℕ → Fin 3 := fun _ => 0

def exLen : Fin 1 → ℕ := fun _ => 1

theorem crf_viterbi_optimal_witness :
    prefScore wTrans (wFeats 0) (fun _ => (0 : Fin 3)) (wLen 0) +
        wTrans ((fun _ => (0 : Fin 3)) (wLen 0 - 1)) (endIdx 1)
      ≤ prefScore wTrans (wFeats 0) (forward wTrans 1 wFeats wMask 0) (wLen 0) +
        wTrans (forward wTrans 1 wFeats wMask 0 (wLen 0 - 1)) (endIdx 1) :=
  crf_viterbi_optimal wTrans 1 wFeats wMask wLen
    (fun _ t => by simp [wMask, wLen]) (fun _ => le_refl 1) (fun _ => le_refl 1)
    0 (fun _ => 0)

theorem crf_forward_alg_correct_witness :
    (forward_alg wTrans 1 wFeats wMask).1
        = ∑ b : Fin 1, Real.log (pathSum wTrans (wFeats b) (wLen b)) ∧
    ∀ t b i j, (forward_alg wTrans 1 wFeats wMask).2 t b i j
        = wFeats b t j + wTrans i j :=
  crf_forward_alg_correct wTrans 1 wFeats wMask wLen
    (fun _ t => by simp [wMask, wLen]) (fun _ => le_refl 1) (fun _ => le_refl 1)

theorem crf_loss_nonneg_witness :
    score_sentence wTrans (forward_alg wTrans 1 wFeats wMask).2 1 wMask wTags
        ≤ (forward_alg wTrans 1 wFeats wMask).1 ∧
    0 ≤ neg_log_likelihood_loss wTrans 1 wFeats wMask wTags :=
  crf_loss_nonneg wTrans 1 wFeats wMask wTags wLen
    (fun _ t => by simp [wMask, wLen]) (fun _ => le_refl 1) (fun _ => le_refl 1)
    (fun _ t _ => by norm_num [wTags])

theorem crf_decode_padding_amended_witness :
    (∀ t, exLen 0 ≤ t → t < 2 - 1 →
        (forward (init_transitions 1) 2 exFeats exMask 0 t).val = 0) ∧
    forward (init_transitions 1) 2 exFeats exMask 0 (2 - 1)
        = forward (init_transitions 1) 2 exFeats exMask 0 (exLen 0 - 1) ∧
    ∀ t, t < exLen 0 →
        (forward (init_transitions 1) 2 exFeats exMask 0 t).val < 1 + 2 :=
  crf_decode_padding_amended (init_transitions 1) 2 exFeats exMask exLen
    (fun _ t => by simp [exMask, exLen]) (fun _ => le_refl 1)
    (fun _ => by norm_num [exLen]) 0

theorem crf_padding_invariance_witness :
    forward_score_row wTrans 1 wRowFeats (fun _ => true)
        = forward_score_row wTrans 2 wRowFeats wRowMask ∧
    score_sentence_row wTrans (fun t => scoresRow wTrans wRowFeats t) 1
        (fun _ => true) wRowTags
      = score_sentence_row wTrans (fun t => scoresRow wTrans wRowFeats t) 2
        wRowMask wRowTags :=
  crf_padding_invariance wTrans wRowFeats wRowFeats wRowTags wRowTags
    (fun t => by simp [wRowMask]) (le_refl 1) (by norm_num)
    (fun _ _ _ => rfl) (fun _ _ => rfl)

theorem crf_score_sentence_correct_witness :
    score_sentence wTrans wScores 1 wMask wTags
      = ∑ b : Fin 1, ((∑ t ∈ Finset.range (wLen b),
            wScores t b (prevTag (wTags b) t) (wTags b t))
          + wTrans (wTags b (wLen b - 1)) (endIdx 1)) :=
  crf_score_sentence_correct wTrans 1 wScores wMask wTags wLen
    (fun _ t => by simp [wMask, wLen]) (fun _ => le_refl 1) (fun _ => le_refl 1)
    (fun _ t _ => by norm_num [wTags])

theorem crf_init_transitions_spec_witness :
    init_transitions 1 (⟨0, by omega⟩ : Fin 3) (⟨0, by omega⟩ : Fin 3) = 0 :=
  (crf_init_transitions_spec 1).2.2 ⟨0, by omega⟩ ⟨0, by omega⟩
    (by decide) (by decide)

theorem crf_loss_tags_agree_witness :
    neg_log_likelihood_loss wTrans 1 wFeats wMask wTags
      = neg_log_likelihood_loss wTrans 1 wFeats wMask wTagsB :=
  crf_loss_tags_agree wTrans 1 wFeats wMask wTags wTagsB wLen
    (fun _ t => by simp [wMask, wLen]) (fun _ => le_refl 1) (fun _ => le_refl 1)
    (fun _ t ht => by
      have h0 : t = 0 := by simp [wLen] at ht; omega
      subst h0
      simp [wTags, wTagsB])

end CRF
